import Mathlib

/-!
Shallow embedding of `meshless/espim/read_mesh.py`: the adjacency builder of
a triangular surface mesh.  Nodes, triangles and edges are modelled as plain
records cross-referenced by identity (node ids, element ids, canonical edge
keys); mutable dictionaries become association lists preserving insertion
order, and the in-place mutation loops become folds that rewrite the
corresponding entry of the list.
-/

namespace Meshless

/-- An edge key: a pair of node ids. -/
abbrev EKey := Nat × Nat

/-- Canonical form of the node pair `(a, b)`: sorted ascending.  Models
`tuple(sorted(edge))` inside pyNastran's `CTRIA3.get_edge_ids`, as described
by the spec's edge-key canonicalization (§4.1). -/
def canon (a b : Nat) : EKey := if a ≤ b then (a, b) else (b, a)

/-- A mesh node (pyNastran `GRID` plus the adjacency slots that
`read_mesh`/`read_delaunay` install on it: `trias`, `edges`, `index`). -/
structure Node where
  nid : Nat
  xyz : List Int
  trias : Finset Nat
  edges : Finset EKey
  index : Finset Nat
deriving DecidableEq

/-- A triangular element (pyNastran `CTRIA3` with the `edges` list installed
by the builder).  `n1`, `n2`, `n3` are the element's three node ids; `edges`
holds canonical edge keys, identifying `Edge` records of the mesh. -/
structure Tria where
  eid : Nat
  n1 : Nat
  n2 : Nat
  n3 : Nat
  edges : List EKey
deriving DecidableEq

/-- Model of `tria.node_ids` of a `CTRIA3`. -/
def Tria.node_ids (t : Tria) : List Nat := [t.n1, t.n2, t.n3]

/-- Model of `CTRIA3.get_edge_ids`: the canonical keys of the triangle's three local
edges, in the local enumeration order `0–1`, `1–2`, `2–0`. -/
def Tria.get_edge_ids (t : Tria) : List EKey :=
  [canon t.n1 t.n2, canon t.n2 t.n3, canon t.n3 t.n1]

/-- Modelled from the spec: the class `meshless.espim.classes.Edge` is not
part of the sources at hand; per §3 an Edge holds references to its two
endpoint nodes and its supporting triangles.  Endpoints and triangles are
stored by id. -/
structure Edge where
  n1 : Nat
  n2 : Nat
  trias : List Nat
deriving DecidableEq

/-- The mesh aggregate returned by the builders: node mapping (insertion
ordered), element list, and canonical edge key → Edge mapping (insertion
ordered). -/
structure Mesh where
  nodes : List (Nat × Node)
  elements : List Tria
  edges : List (EKey × Edge)
deriving DecidableEq

/-- Association-list lookup (Python `dict` access by key). -/
def alook {K V : Type} [DecidableEq K] : List (K × V) → K → Option V
  | [], _ => none
  | p :: rest, k => if p.1 = k then some p.2 else alook rest k

/-- One `edges_ids[edge_id].append(tria)` step of the defaultdict
accumulation: if the key is present, append to its group; otherwise add the
key at the end with a singleton group. -/
def bump (m : List (EKey × List Tria)) (k : EKey) (t : Tria) :
    List (EKey × List Tria) :=
  match alook m k with
  | some _ => m.map (fun p => if p.1 = k then (p.1, p.2 ++ [t]) else p)
  | none => m ++ [(k, [t])]

/-- The `edges_ids` accumulation loop: for every triangle, for every one of
its edge keys, append the triangle to that key's group. -/
def edges_ids (trias : List Tria) : List (EKey × List Tria) :=
  trias.foldl (fun m t => t.get_edge_ids.foldl (fun m k => bump m k t) m) []

/-- The `edges` dictionary: one `Edge` per accumulated key, holding the key's
endpoints and the full triangle group (by element id), in key insertion
order. -/
def mkEdges (eIds : List (EKey × List Tria)) : List (EKey × Edge) :=
  eIds.map (fun p => (p.1, { n1 := p.1.1, n2 := p.1.2, trias := p.2.map Tria.eid }))

/-- Model of `mesh.nodes[nid].edges.add(edge)`: insert the key `k` into the edge set
of every node entry keyed `nid`. -/
def addEdgeKey (ns : List (Nat × Node)) (nid : Nat) (k : EKey) :
    List (Nat × Node) :=
  ns.map (fun p => if p.1 = nid then (p.1, { p.2 with edges := insert k p.2.edges }) else p)

/-- The edge-registration loop: for each `(n1, n2) → edge` entry, register
the edge on both endpoint nodes. -/
def registerEdges (ns : List (Nat × Node)) (es : List (EKey × Edge)) :
    List (Nat × Node) :=
  es.foldl (fun ns p => addEdgeKey (addEdgeKey ns p.1.1 p.1) p.1.2 p.1) ns

/-- Model of `tria.edges.append(edge)`: append the key `k` to the edge list of every
element with id `eid`. -/
def appendEdge (ts : List Tria) (eid : Nat) (k : EKey) : List Tria :=
  ts.map (fun t => if t.eid = eid then { t with edges := t.edges ++ [k] } else t)

/-- The edge-attachment loop: `for edge in edges.values(): for tria in
edge.trias: tria.edges.append(edge)`. -/
def attachEdges (ts : List Tria) (es : List (EKey × Edge)) : List Tria :=
  es.foldl (fun ts p => p.2.trias.foldl (fun ts eid => appendEdge ts eid p.1) ts) ts

/-- Model of `mesh.nodes[nid].trias.add(tria.eid)`. -/
def addTriaId (ns : List (Nat × Node)) (nid : Nat) (eid : Nat) :
    List (Nat × Node) :=
  ns.map (fun p => if p.1 = nid then (p.1, { p.2 with trias := insert eid p.2.trias }) else p)

/-- The triangle-registration loop: `for tria in trias: for nid in
tria.node_ids: mesh.nodes[nid].trias.add(tria.eid)`. -/
def registerTrias (ns : List (Nat × Node)) (ts : List Tria) :
    List (Nat × Node) :=
  ts.foldl (fun ns t => t.node_ids.foldl (fun ns nid => addTriaId ns nid t.eid) ns) ns

/-- The adjacency-building core shared verbatim by `read_mesh` (lines 42–59)
and `read_delaunay` (lines 120–136): accumulate `edges_ids`, build the edge
dictionary, register edges on endpoint nodes, attach edges onto triangles,
and register triangle ids on nodes. -/
def buildAdjacency (ns : List (Nat × Node)) (ts : List Tria) : Mesh :=
  let es := mkEdges (edges_ids ts)
  { nodes := registerTrias (registerEdges ns es) ts
    elements := attachEdges ts es
    edges := es }

/-- A parsed input element: either a 3-node triangle (`CTRIA3`) or an
element of some other, unsupported kind. -/
inductive Elem where
  | tri (t : Tria)
  | unsupported (kind : String)
deriving DecidableEq

/-- Whether an element is the supported triangle kind. -/
def Elem.isTri : Elem → Bool
  | .tri _ => true
  | .unsupported _ => false

/-- The element-collection loop of `read_mesh`: gather `CTRIA3` elements
(resetting their `edges` list), raising `NotImplementedError` on any other
element kind. -/
def collectTrias : List Elem → Except String (List Tria)
  | [] => .ok []
  | .tri t :: rest => (collectTrias rest).map (fun ts => { t with edges := [] } :: ts)
  | .unsupported kind :: _ => .error ("Element type " ++ kind ++ " not supported")

/-- The per-node initialisation of `read_mesh`: empty `trias`, `edges` and
`index` sets. -/
def initNode (nd : Node) : Node := { nd with trias := ∅, edges := ∅, index := ∅ }

/-- Model of `read_mesh` after parsing: initialise every node's adjacency slots,
collect the triangles (failing on an unsupported element kind), then build
the adjacency structure. -/
def read_mesh (ns : List (Nat × Node)) (elems : List Elem) : Except String Mesh :=
  (collectTrias elems).map (fun ts =>
    buildAdjacency (ns.map (fun p => (p.1, initNode p.2))) ts)

/-- Node synthesis of `read_delaunay`: a 2-coordinate point is embedded into
3D with a zero third coordinate, any other point is stored unchanged. -/
def mkNode (nid : Nat) (pt : List Int) : Node :=
  { nid := nid
    xyz := match pt with
      | [x, y] => [x, y, 0]
      | _ => pt
    trias := ∅, edges := ∅, index := ∅ }

/-- The node-synthesis loop of `read_delaunay`: one node per point, with
sequential ids continuing from `nid0`. -/
def mkNodes (nid0 : Nat) : List (List Int) → List Node
  | [] => []
  | pt :: rest => mkNode (nid0 + 1) pt :: mkNodes (nid0 + 1) rest

/-- The triangle-synthesis loop of `read_delaunay`: one `CTRIA3` per simplex
index triple, with sequential ids continuing from `eid0`; node ids are read
off the synthesized node list (`nodes[i1]`, `nodes[i2]`, `nodes[i3]`), and an
out-of-range index fails like Python's `IndexError`. -/
def mkTrias (nodes : List Node) (eid0 : Nat) :
    List (Nat × Nat × Nat) → Option (List Tria)
  | [] => some []
  | s :: rest => do
      let a ← nodes[s.1]?
      let b ← nodes[s.2.1]?
      let c ← nodes[s.2.2]?
      let ts ← mkTrias nodes (eid0 + 1) rest
      pure ({ eid := eid0 + 1, n1 := a.nid, n2 := b.nid, n3 := c.nid, edges := [] } :: ts)

/-- Model of `read_delaunay`: synthesize nodes from the point cloud and triangles
from the triangulation's simplices, then build the adjacency structure. -/
def read_delaunay (points : List (List Int)) (simplices : List (Nat × Nat × Nat)) :
    Option Mesh :=
  let nodes := mkNodes 0 points
  (mkTrias nodes 0 simplices).map (fun ts =>
    buildAdjacency (nodes.map (fun nd => (nd.nid, nd))) ts)

/-! ### Auxiliary definitions used by the statements and proofs -/

/-- The triangle group accumulated under key `k`: every triangle of `ts`, once
per occurrence of `k` among its edge keys, in processing order. -/
def groupOf (ts : List Tria) (k : EKey) : List Tria :=
  ts.flatMap (fun t => (t.get_edge_ids.filter (fun k2 => k2 = k)).map (fun _ => t))

/-- The flattened `(key, triangle)` pair stream scanned by the accumulation
loop, in processing order. -/
def pairsOf (ts : List Tria) : List (EKey × Tria) :=
  ts.flatMap (fun t => t.get_edge_ids.map (fun k => (k, t)))

/-- Triangles of the pair stream carrying key `k`, in order. -/
def gather (l : List (EKey × Tria)) (k : EKey) : List Tria :=
  (l.filter (fun p => p.1 = k)).map Prod.snd

/-- Combination of an optional existing group with newly gathered triangles. -/
def extGroup (o : Option (List Tria)) (g : List Tria) : Option (List Tria) :=
  match o, g with
  | none, [] => none
  | o, g => some (o.getD [] ++ g)

/-- Keys appended onto the element with id `eid` by the attachment loop: one
copy of each edge key, per occurrence of `eid` in that edge's triangle list,
in edge-dictionary order. -/
def keysFor (es : List (EKey × Edge)) (eid : Nat) : List EKey :=
  es.flatMap (fun p => (p.2.trias.filter (fun e => e = eid)).map (fun _ => p.1))

/-- Edge keys inserted into the edge set of the node with id `nid` by the
registration loop over the edge dictionary `es`. -/
def addKeys (nid : Nat) (es : List (EKey × Edge)) (s : Finset EKey) : Finset EKey :=
  es.foldl (fun s ke =>
    let s1 := if nid = ke.1.1 then insert ke.1 s else s
    if nid = ke.1.2 then insert ke.1 s1 else s1) s

/-- Element ids inserted into the triangle set of the node with id `nid` by
the registration loop over the triangle list `ts`. -/
def addEids (nid : Nat) (ts : List Tria) (s : Finset Nat) : Finset Nat :=
  ts.foldl (fun s t =>
    t.node_ids.foldl (fun s n => if nid = n then insert t.eid s else s) s) s

/-- Spec-side description of the point embedding: a 2-coordinate point gains
a zero third coordinate, any other point is stored unchanged. -/
def padPt (pt : List Int) : List Int := if pt.length = 2 then pt ++ [0] else pt

/-- Concrete four-node mesh node mapping (ids 1–4); coordinates play no role
in adjacency construction. -/
def exNodes : List (Nat × Node) :=
  [(1, ⟨1, [], ∅, ∅, ∅⟩), (2, ⟨2, [], ∅, ∅, ∅⟩), (3, ⟨3, [], ∅, ∅, ∅⟩),
   (4, ⟨4, [], ∅, ∅, ∅⟩)]

/-- Concrete triangle with element id 1 over nodes 1, 2, 3. -/
def exT1 : Tria := ⟨1, 1, 2, 3, []⟩

/-- Concrete triangle with element id 2 over nodes 2, 4, 3; it shares exactly
the edge with canonical key (2, 3) with `exT1`. -/
def exT2 : Tria := ⟨2, 2, 4, 3, []⟩

/-! ### Association-list lookup lemmas -/

theorem alook_append_of_none {K V : Type} [DecidableEq K] {l1 : List (K × V)}
    (l2 : List (K × V)) {k : K} (h : alook l1 k = none) :
    alook (l1 ++ l2) k = alook l2 k := by
  induction l1 with
  | nil => simp
  | cons p rest ih =>
      by_cases hp : p.1 = k
      · simp [alook, hp] at h
      · simp only [alook, hp, if_false, List.cons_append] at h ⊢
        exact ih h

theorem alook_append_of_some {K V : Type} [DecidableEq K] {l1 : List (K × V)}
    (l2 : List (K × V)) {k : K} {v : V} (h : alook l1 k = some v) :
    alook (l1 ++ l2) k = some v := by
  induction l1 with
  | nil => simp [alook] at h
  | cons p rest ih =>
      by_cases hp : p.1 = k
      · simp only [alook, hp, if_true, List.cons_append] at h ⊢
        exact h
      · simp only [alook, hp, if_false, List.cons_append] at h ⊢
        exact ih h

theorem alook_eq_none_iff {K V : Type} [DecidableEq K] {l : List (K × V)} {k : K} :
    alook l k = none ↔ k ∉ l.map Prod.fst := by
  induction l with
  | nil => simp [alook]
  | cons p rest ih =>
      by_cases hp : p.1 = k
      · refine iff_of_false (by simp [alook, hp]) ?_
        intro h
        exact h (by simp [← hp])
      · simp only [alook, hp, if_false, List.map_cons]
        rw [ih]
        constructor
        · intro h hm
          rcases List.mem_cons.mp hm with h1 | h1
          · exact hp h1.symm
          · exact h h1
        · intro h hm
          exact h (List.mem_cons_of_mem _ hm)

theorem alook_mem {K V : Type} [DecidableEq K] {l : List (K × V)} {k : K} {v : V}
    (h : alook l k = some v) : (k, v) ∈ l := by
  induction l with
  | nil => simp [alook] at h
  | cons p rest ih =>
      by_cases hp : p.1 = k
      · simp only [alook, hp, if_true, Option.some.injEq] at h
        subst hp
        subst h
        simp
      · simp only [alook, hp, if_false] at h
        exact List.mem_cons_of_mem _ (ih h)

theorem alook_of_mem_of_nodup {K V : Type} [DecidableEq K] {l : List (K × V)} {k : K}
    {v : V} (hn : (l.map Prod.fst).Nodup) (h : (k, v) ∈ l) : alook l k = some v := by
  induction l with
  | nil => simp at h
  | cons p rest ih =>
      simp only [List.map_cons, List.nodup_cons] at hn
      rcases List.mem_cons.mp h with h | h
      · subst h
        simp [alook]
      · have hk : p.1 ≠ k := by
          intro hpk
          exact hn.1 (hpk ▸ (List.mem_map.mpr ⟨(k, v), h, rfl⟩))
        simp only [alook, hk, if_false]
        exact ih hn.2 h

/-! ### Characterization of the `edges_ids` accumulation -/

theorem alook_map_update {K V : Type} [DecidableEq K] (l : List (K × V)) (k0 k : K)
    (f : V → V) :
    alook (l.map (fun p => if p.1 = k0 then (p.1, f p.2) else p)) k =
      if k = k0 then (alook l k).map f else alook l k := by
  induction l with
  | nil => by_cases h : k = k0 <;> simp [alook, h]
  | cons p rest ih =>
      by_cases hp : p.1 = k0
      · by_cases hk : k = k0
        · have : p.1 = k := hp.trans hk.symm
          simp [alook, hp, hk, this, ih]
        · have hpk : p.1 ≠ k := fun h => hk (h.symm.trans hp)
          have hk0 : ¬ k0 = k := fun h => hk h.symm
          simp [alook, hp, hk, hpk, hk0, ih]
      · by_cases hpk : p.1 = k
        · have hk : ¬ k = k0 := fun h => hp (hpk.trans h)
          simp [alook, hp, hpk, hk]
        · simp [alook, hp, hpk, ih]

theorem bump_alook (m : List (EKey × List Tria)) (k : EKey) (t : Tria) (k2 : EKey) :
    alook (bump m k t) k2 =
      if k2 = k then some ((alook m k).getD [] ++ [t]) else alook m k2 := by
  unfold bump
  cases h : alook m k with
  | none =>
      by_cases hk : k2 = k
      · subst hk
        rw [alook_append_of_none _ h, h]
        simp [alook]
      · have hk2 : ¬ k = k2 := fun h => hk h.symm
        cases h2 : alook m k2 with
        | none =>
            rw [alook_append_of_none _ h2]
            simp [alook, hk, hk2]
        | some v => rw [alook_append_of_some _ h2]; simp [hk]
  | some g =>
      rw [alook_map_update m k k2 (fun g2 => g2 ++ [t])]
      by_cases hk : k2 = k
      · subst hk
        simp [h]
      · simp [hk]

theorem foldl_bump_alook (l : List (EKey × Tria)) (m : List (EKey × List Tria))
    (k : EKey) :
    alook (l.foldl (fun m p => bump m p.1 p.2) m) k = extGroup (alook m k) (gather l k) := by
  induction l generalizing m with
  | nil =>
      cases h : alook m k with
      | none => simp [gather, extGroup, h]
      | some g => simp [gather, extGroup, h]
  | cons p l ih =>
      rw [List.foldl_cons, ih]
      rw [bump_alook]
      by_cases hp : p.1 = k
      · have hgather : gather (p :: l) k = p.2 :: gather l k := by
          simp [gather, List.filter_cons, hp]
        rw [hgather]
        have hpk : (p.1 = k) = True := by simp [hp]
        cases h : alook m k with
        | none => simp [hp, extGroup, h]
        | some g => simp [hp, extGroup, h]
      · have hgather : gather (p :: l) k = gather l k := by
          simp [gather, List.filter_cons, hp]
        have hkp : ¬ (k = p.1) := fun h => hp h.symm
        rw [hgather, if_neg hkp]

theorem edges_ids_eq_foldl (ts : List Tria) :
    edges_ids ts = (pairsOf ts).foldl (fun m p => bump m p.1 p.2) [] := by
  suffices h : ∀ m, ts.foldl (fun m t => t.get_edge_ids.foldl (fun m k => bump m k t) m) m
      = (pairsOf ts).foldl (fun m p => bump m p.1 p.2) m from h []
  induction ts with
  | nil => intro m; simp [pairsOf]
  | cons t ts ih =>
      intro m
      simp only [List.foldl_cons, pairsOf, List.flatMap_cons, List.foldl_append]
      rw [List.foldl_map]
      exact ih _

theorem gather_pairsOf (ts : List Tria) (k : EKey) :
    gather (pairsOf ts) k = groupOf ts k := by
  induction ts with
  | nil => simp [gather, pairsOf, groupOf]
  | cons t ts ih =>
      simp only [pairsOf, groupOf, List.flatMap_cons] at ih ⊢
      simp only [gather, List.filter_append, List.map_append] at ih ⊢
      rw [ih]
      congr 1
      rw [List.filter_map, List.map_map]
      rfl

theorem alook_edges_ids (ts : List Tria) (k : EKey) :
    alook (edges_ids ts) k =
      if groupOf ts k = [] then none else some (groupOf ts k) := by
  rw [edges_ids_eq_foldl, foldl_bump_alook, gather_pairsOf]
  cases h : groupOf ts k with
  | nil => simp [alook, extGroup]
  | cons a g => simp [alook, extGroup]

theorem bump_keys (m : List (EKey × List Tria)) (k : EKey) (t : Tria) :
    (bump m k t).map Prod.fst =
      if alook m k = none then m.map Prod.fst ++ [k] else m.map Prod.fst := by
  unfold bump
  cases h : alook m k with
  | none => simp
  | some g =>
      simp only [if_false, List.map_map]
      have : ∀ p : EKey × List Tria,
          ((fun p => if p.1 = k then (p.1, p.2 ++ [t]) else p) p).1 = p.1 := by
        intro p
        by_cases hp : p.1 = k <;> simp [hp]
      calc (m.map fun p => ((fun p => if p.1 = k then (p.1, p.2 ++ [t]) else p) p).1)
          = m.map Prod.fst := List.map_congr_left (fun p _ => this p)
        _ = m.map Prod.fst := rfl

theorem foldl_bump_keys_nodup (l : List (EKey × Tria)) (m : List (EKey × List Tria))
    (hm : (m.map Prod.fst).Nodup) :
    ((l.foldl (fun m p => bump m p.1 p.2) m).map Prod.fst).Nodup := by
  induction l generalizing m with
  | nil => exact hm
  | cons p l ih =>
      rw [List.foldl_cons]
      refine ih _ ?_
      rw [bump_keys]
      cases h : alook m p.1 with
      | none =>
          simp only [if_true]
          have hk : p.1 ∉ m.map Prod.fst := alook_eq_none_iff.mp h
          simp [List.nodup_append, hm, hk]
      | some g => simpa using hm

theorem edges_ids_keys_nodup (ts : List Tria) :
    ((edges_ids ts).map Prod.fst).Nodup := by
  rw [edges_ids_eq_foldl]
  exact foldl_bump_keys_nodup _ [] (by simp)

theorem mem_edges_ids_keys_iff (ts : List Tria) (k : EKey) :
    k ∈ (edges_ids ts).map Prod.fst ↔ groupOf ts k ≠ [] := by
  rw [← not_iff_not, not_not, ← alook_eq_none_iff, alook_edges_ids]
  by_cases h : groupOf ts k = [] <;> simp [h]

theorem mem_groupOf (ts : List Tria) (k : EKey) (t : Tria) :
    t ∈ groupOf ts k ↔ t ∈ ts ∧ k ∈ t.get_edge_ids := by
  unfold groupOf
  rw [List.mem_flatMap]
  constructor
  · rintro ⟨t2, ht2, hmem⟩
    rcases List.mem_map.mp hmem with ⟨k2, hk2, rfl⟩
    rcases List.mem_filter.mp hk2 with ⟨hk2mem, hk2eq⟩
    have : k2 = k := by simpa using hk2eq
    exact ⟨ht2, this ▸ hk2mem⟩
  · rintro ⟨ht, hk⟩
    refine ⟨t, ht, List.mem_map.mpr ⟨k, List.mem_filter.mpr ⟨hk, by simp⟩, rfl⟩⟩

theorem groupOf_ne_nil_iff (ts : List Tria) (k : EKey) :
    groupOf ts k ≠ [] ↔ ∃ t ∈ ts, k ∈ t.get_edge_ids := by
  constructor
  · intro h
    rcases List.exists_mem_of_ne_nil _ h with ⟨t, ht⟩
    rcases (mem_groupOf ts k t).mp ht with ⟨h1, h2⟩
    exact ⟨t, h1, h2⟩
  · rintro ⟨t, ht, hk⟩
    exact List.ne_nil_of_mem ((mem_groupOf ts k t).mpr ⟨ht, hk⟩)

/-! ### Lemmas about the edge dictionary -/

theorem mkEdges_keys (l : List (EKey × List Tria)) :
    (mkEdges l).map Prod.fst = l.map Prod.fst := by
  simp [mkEdges, List.map_map]

theorem alook_mkEdges (l : List (EKey × List Tria)) (k : EKey) :
    alook (mkEdges l) k =
      (alook l k).map (fun g => Edge.mk k.1 k.2 (g.map Tria.eid)) := by
  induction l with
  | nil => simp [mkEdges, alook]
  | cons p rest ih =>
      by_cases hp : p.1 = k
      · subst hp
        simp [mkEdges, alook]
      · simp only [mkEdges, List.map_cons, alook, hp, if_false]
        exact ih

theorem mem_mkEdges_inv {l : List (EKey × List Tria)} {ke : EKey × Edge}
    (h : ke ∈ mkEdges l) :
    ∃ g, (ke.1, g) ∈ l ∧ ke.2 = Edge.mk ke.1.1 ke.1.2 (g.map Tria.eid) := by
  rcases List.mem_map.mp h with ⟨p, hp, rfl⟩
  exact ⟨p.2, hp, rfl⟩

theorem mem_edges_ids_alook {ts : List Tria} {k : EKey} {g : List Tria}
    (h : (k, g) ∈ edges_ids ts) : alook (edges_ids ts) k = some g :=
  alook_of_mem_of_nodup (edges_ids_keys_nodup ts) h

theorem mem_edges_ids_group {ts : List Tria} {k : EKey} {g : List Tria}
    (h : (k, g) ∈ edges_ids ts) : g = groupOf ts k ∧ groupOf ts k ≠ [] := by
  have h2 := mem_edges_ids_alook h
  rw [alook_edges_ids] at h2
  by_cases hg : groupOf ts k = []
  · rw [if_pos hg] at h2
    cases h2
  · rw [if_neg hg] at h2
    exact ⟨(Option.some.injEq _ _ ▸ h2).symm, hg⟩

/-! ### Characterization of the attachment loop -/

theorem map_self {α : Type} (l : List α) (f : α → α) (h : ∀ a, f a = a) :
    l.map f = l := by
  induction l with
  | nil => rfl
  | cons a l ih => rw [List.map_cons, h, ih]

theorem appendEdge_eq (ts : List Tria) (eid : Nat) (k : EKey) :
    appendEdge ts eid k =
      ts.map (fun t => { t with edges := t.edges ++ if t.eid = eid then [k] else [] }) := by
  unfold appendEdge
  refine List.map_congr_left (fun t _ => ?_)
  by_cases h : t.eid = eid <;> simp [h]

theorem foldl_appendEdge (l : List Nat) (ts : List Tria) (k : EKey) :
    l.foldl (fun ts eid => appendEdge ts eid k) ts =
      ts.map (fun t =>
        { t with edges := t.edges ++ (l.filter (fun e => e = t.eid)).map (fun _ => k) }) := by
  induction l generalizing ts with
  | nil =>
      simp only [List.foldl_nil, List.filter_nil, List.map_nil, List.append_nil]
      exact (map_self ts _ (fun t => rfl)).symm
  | cons e l ih =>
      rw [List.foldl_cons, ih, appendEdge_eq, List.map_map]
      refine List.map_congr_left (fun t _ => ?_)
      by_cases h : e = t.eid
      · simp [h, List.filter_cons, List.append_assoc]
      · have h2 : ¬ t.eid = e := fun hh => h hh.symm
        simp [h, h2, List.filter_cons]

theorem attachEdges_eq (ts : List Tria) (es : List (EKey × Edge)) :
    attachEdges ts es = ts.map (fun t => { t with edges := t.edges ++ keysFor es t.eid }) := by
  induction es generalizing ts with
  | nil =>
      simp only [attachEdges, List.foldl_nil, keysFor, List.flatMap_nil, List.append_nil]
      exact (map_self ts _ (fun t => rfl)).symm
  | cons p es ih =>
      show List.foldl _ (p.2.trias.foldl (fun ts eid => appendEdge ts eid p.1) ts) es = _
      rw [show List.foldl (fun ts p => p.2.trias.foldl (fun ts eid => appendEdge ts eid p.1) ts)
            (p.2.trias.foldl (fun ts eid => appendEdge ts eid p.1) ts) es =
          attachEdges (p.2.trias.foldl (fun ts eid => appendEdge ts eid p.1) ts) es from rfl]
      rw [ih, foldl_appendEdge, List.map_map]
      refine List.map_congr_left (fun t _ => ?_)
      simp [keysFor, List.flatMap_cons, List.append_assoc]

/-! ### Characterization of the node-registration loops -/

theorem addEdgeKey_eq (ns : List (Nat × Node)) (nid : Nat) (k : EKey) :
    addEdgeKey ns nid k = ns.map (fun p =>
      (p.1, { p.2 with edges := if p.1 = nid then insert k p.2.edges else p.2.edges })) := by
  unfold addEdgeKey
  refine List.map_congr_left (fun p _ => ?_)
  by_cases h : p.1 = nid <;> simp [h]

theorem registerEdges_eq (ns : List (Nat × Node)) (es : List (EKey × Edge)) :
    registerEdges ns es = ns.map (fun p =>
      (p.1, { p.2 with edges := addKeys p.1 es p.2.edges })) := by
  induction es generalizing ns with
  | nil =>
      simp only [registerEdges, List.foldl_nil]
      exact (map_self ns _ (fun p => rfl)).symm
  | cons ke es ih =>
      show registerEdges (addEdgeKey (addEdgeKey ns ke.1.1 ke.1) ke.1.2 ke.1) es = _
      rw [ih, addEdgeKey_eq, addEdgeKey_eq, List.map_map, List.map_map]
      exact List.map_congr_left (fun p _ => rfl)

theorem mem_insert_cond {α : Type} [DecidableEq α] {s : Finset α} {a x : α} {c : Prop}
    [Decidable c] : x ∈ (if c then insert a s else s) ↔ x ∈ s ∨ (c ∧ x = a) := by
  by_cases h : c <;> simp [h, Finset.mem_insert, or_comm, eq_comm]

theorem mem_addKeys (nid : Nat) (es : List (EKey × Edge)) (s : Finset EKey) (k0 : EKey) :
    k0 ∈ addKeys nid es s ↔
      k0 ∈ s ∨ (k0 ∈ es.map Prod.fst ∧ (nid = k0.1 ∨ nid = k0.2)) := by
  induction es generalizing s with
  | nil => simp [addKeys]
  | cons ke es ih =>
      have hstep : addKeys nid (ke :: es) s =
          addKeys nid es (if nid = ke.1.2 then insert ke.1 (if nid = ke.1.1 then insert ke.1 s else s)
            else if nid = ke.1.1 then insert ke.1 s else s) := rfl
      rw [hstep, ih]
      rw [mem_insert_cond]
      constructor
      · rintro ((h | h) | h)
        · rcases (mem_insert_cond.mp h) with h | ⟨hc, hk⟩
          · exact Or.inl h
          · refine Or.inr ⟨by simp [hk], Or.inl ?_⟩
            rw [hk]
            exact hc
        · refine Or.inr ⟨by simp [h.2], Or.inr ?_⟩
          rw [h.2]
          exact h.1
        · exact Or.inr ⟨List.mem_cons_of_mem _ h.1, h.2⟩
      · rintro (h | ⟨hmem, hside⟩)
        · exact Or.inl (Or.inl (mem_insert_cond.mpr (Or.inl h)))
        · rcases List.mem_map.mp hmem with ⟨ke2, hke2, hfst⟩
          rcases List.mem_cons.mp hke2 with h | h
          · subst h
            rcases hside with hside | hside
            · refine Or.inl (Or.inl (mem_insert_cond.mpr (Or.inr ⟨?_, hfst.symm⟩)))
              rw [← hfst] at hside
              exact hside
            · refine Or.inl (Or.inr ⟨?_, hfst.symm⟩)
              rw [← hfst] at hside
              exact hside
          · exact Or.inr ⟨List.mem_map.mpr ⟨ke2, h, hfst⟩, hside⟩

theorem addTriaId_eq (ns : List (Nat × Node)) (nid : Nat) (eid : Nat) :
    addTriaId ns nid eid = ns.map (fun p =>
      (p.1, { p.2 with trias := if p.1 = nid then insert eid p.2.trias else p.2.trias })) := by
  unfold addTriaId
  refine List.map_congr_left (fun p _ => ?_)
  by_cases h : p.1 = nid <;> simp [h]

theorem foldl_addTriaId (l : List Nat) (ns : List (Nat × Node)) (eid : Nat) :
    l.foldl (fun ns n => addTriaId ns n eid) ns =
      ns.map (fun p =>
        (p.1,
          { p.2 with
            trias := l.foldl (fun s n => if p.1 = n then insert eid s else s) p.2.trias })) := by
  induction l generalizing ns with
  | nil =>
      simp only [List.foldl_nil]
      exact (map_self ns _ (fun p => rfl)).symm
  | cons n l ih =>
      rw [List.foldl_cons, ih, addTriaId_eq, List.map_map]
      exact List.map_congr_left (fun p _ => rfl)

theorem registerTrias_eq (ns : List (Nat × Node)) (ts : List Tria) :
    registerTrias ns ts = ns.map (fun p =>
      (p.1, { p.2 with trias := addEids p.1 ts p.2.trias })) := by
  induction ts generalizing ns with
  | nil =>
      simp only [registerTrias, List.foldl_nil]
      exact (map_self ns _ (fun p => rfl)).symm
  | cons t ts ih =>
      show registerTrias (t.node_ids.foldl (fun ns n => addTriaId ns n t.eid) ns) ts = _
      rw [ih, foldl_addTriaId, List.map_map]
      exact List.map_congr_left (fun p _ => rfl)

theorem mem_foldl_insert_cond (l : List Nat) (s : Finset Nat) (nid eid e : Nat) :
    e ∈ l.foldl (fun s n => if nid = n then insert eid s else s) s ↔
      e ∈ s ∨ (e = eid ∧ nid ∈ l) := by
  induction l generalizing s with
  | nil => simp
  | cons n l ih =>
      rw [List.foldl_cons, ih, mem_insert_cond]
      constructor
      · rintro ((h | h) | h)
        · exact Or.inl h
        · exact Or.inr ⟨h.2, by simp [h.1]⟩
        · exact Or.inr ⟨h.1, List.mem_cons_of_mem _ h.2⟩
      · rintro (h | ⟨he, hmem⟩)
        · exact Or.inl (Or.inl h)
        · rcases List.mem_cons.mp hmem with h | h
          · exact Or.inl (Or.inr ⟨h ▸ rfl, he⟩)
          · exact Or.inr ⟨he, h⟩

theorem mem_addEids (nid : Nat) (ts : List Tria) (s : Finset Nat) (e : Nat) :
    e ∈ addEids nid ts s ↔ e ∈ s ∨ ∃ t ∈ ts, t.eid = e ∧ nid ∈ t.node_ids := by
  induction ts generalizing s with
  | nil => simp [addEids]
  | cons t ts ih =>
      have hstep : addEids nid (t :: ts) s =
          addEids nid ts (t.node_ids.foldl (fun s n => if nid = n then insert t.eid s else s) s) := rfl
      rw [hstep, ih, mem_foldl_insert_cond]
      constructor
      · rintro ((h | h) | ⟨t2, ht2, he, hn⟩)
        · exact Or.inl h
        · exact Or.inr ⟨t, List.mem_cons_self _ _, h.1.symm, h.2⟩
        · exact Or.inr ⟨t2, List.mem_cons_of_mem _ ht2, he, hn⟩
      · rintro (h | ⟨t2, ht2, he, hn⟩)
        · exact Or.inl (Or.inl h)
        · rcases List.mem_cons.mp ht2 with h | h
          · subst h
            exact Or.inl (Or.inr ⟨he.symm, hn⟩)
          · exact Or.inr ⟨t2, h, he, hn⟩

/-! ### Canonical keys and nondegenerate triangles -/

theorem canon_le (a b : Nat) : (canon a b).1 ≤ (canon a b).2 := by
  unfold canon
  split <;> simp <;> omega

theorem canon_cases (a b c d : Nat) (h : canon a b = canon c d) :
    (a = c ∧ b = d) ∨ (a = d ∧ b = c) := by
  unfold canon at h
  split at h <;> split at h <;>
    simp only [Prod.mk.injEq] at h <;> omega

theorem mem_get_edge_ids_sorted {t : Tria} {k : EKey} (h : k ∈ t.get_edge_ids) :
    k.1 ≤ k.2 := by
  unfold Tria.get_edge_ids at h
  rcases List.mem_cons.mp h with h | h
  · exact h ▸ canon_le _ _
  rcases List.mem_cons.mp h with h | h
  · exact h ▸ canon_le _ _
  rcases List.mem_cons.mp h with h | h
  · exact h ▸ canon_le _ _
  · simp at h

theorem get_edge_ids_nodup {t : Tria} (h12 : t.n1 ≠ t.n2) (h23 : t.n2 ≠ t.n3)
    (h13 : t.n1 ≠ t.n3) : t.get_edge_ids.Nodup := by
  unfold Tria.get_edge_ids
  refine List.nodup_cons.mpr ⟨?_, List.nodup_cons.mpr ⟨?_, List.nodup_singleton _⟩⟩
  · intro h
    rcases List.mem_cons.mp h with h | h
    · rcases canon_cases _ _ _ _ h with ⟨h1, h2⟩ | ⟨h1, h2⟩ <;> omega
    · rcases List.mem_singleton.mp h with h
      rcases canon_cases _ _ _ _ h with ⟨h1, h2⟩ | ⟨h1, h2⟩ <;> omega
  · intro h
    rcases List.mem_singleton.mp h with h
    rcases canon_cases _ _ _ _ h with ⟨h1, h2⟩ | ⟨h1, h2⟩ <;> omega

theorem filter_eq_self_of_nodup {α : Type} [DecidableEq α] {l : List α}
    (h : l.Nodup) (k : α) :
    l.filter (fun x => x = k) = if k ∈ l then [k] else [] := by
  induction l with
  | nil => simp
  | cons a l ih =>
      rcases List.nodup_cons.mp h with ⟨ha, hl⟩
      by_cases hk : a = k
      · subst hk
        simp [List.filter_cons, ih hl, ha]
      · have hk2 : ¬ (k = a) := fun h2 => hk h2.symm
        simp [List.filter_cons, hk, hk2, ih hl]

theorem groupOf_eq_filter {ts : List Tria} (hN : ∀ t ∈ ts, t.get_edge_ids.Nodup)
    (k : EKey) : groupOf ts k = ts.filter (fun t => k ∈ t.get_edge_ids) := by
  induction ts with
  | nil => simp [groupOf]
  | cons t ts ih =>
      have ht := hN t (List.mem_cons_self _ _)
      have hts : ∀ t2 ∈ ts, t2.get_edge_ids.Nodup :=
        fun t2 h2 => hN t2 (List.mem_cons_of_mem _ h2)
      simp only [groupOf, List.flatMap_cons] at ih ⊢
      rw [ih hts, filter_eq_self_of_nodup ht k, List.filter_cons]
      by_cases hk : k ∈ t.get_edge_ids <;> simp [hk]

/-! ### Projections preserved by the builder -/

theorem buildAdjacency_nodes_proj (ns : List (Nat × Node)) (ts : List Tria) :
    (buildAdjacency ns ts).nodes.map (fun p => (p.1, p.2.nid, p.2.xyz, p.2.index)) =
      ns.map (fun p => (p.1, p.2.nid, p.2.xyz, p.2.index)) := by
  show (registerTrias (registerEdges ns _) ts).map _ = _
  rw [registerTrias_eq, registerEdges_eq, List.map_map, List.map_map]
  exact List.map_congr_left (fun p _ => rfl)

theorem buildAdjacency_elements_proj (ns : List (Nat × Node)) (ts : List Tria) :
    (buildAdjacency ns ts).elements.map (fun t => (t.eid, t.n1, t.n2, t.n3)) =
      ts.map (fun t => (t.eid, t.n1, t.n2, t.n3)) := by
  show (attachEdges ts _).map _ = _
  rw [attachEdges_eq, List.map_map]
  exact List.map_congr_left (fun t _ => rfl)

/-! ### Element collection and synthesis lemmas -/

theorem collectTrias_ok_iff (elems : List Elem) :
    (∃ ts, collectTrias elems = .ok ts) ↔ ∀ el ∈ elems, el.isTri = true := by
  induction elems with
  | nil => simp [collectTrias]
  | cons el elems ih =>
      cases el with
      | tri t =>
          simp only [collectTrias, List.mem_cons]
          constructor
          · rintro ⟨ts, hts⟩ el2 hel2
            rcases hel2 with h | h
            · subst h
              rfl
            · cases hc : collectTrias elems with
              | error e => rw [hc] at hts; cases hts
              | ok ts2 => exact (ih.mp ⟨ts2, hc⟩) el2 h
          · intro h
            rcases ih.mpr (fun el2 h2 => h el2 (Or.inr h2)) with ⟨ts, hts⟩
            exact ⟨_, by rw [hts]; rfl⟩
      | unsupported kind =>
          simp only [collectTrias]
          constructor
          · rintro ⟨ts, hts⟩
            cases hts
          · intro h
            have := h (.unsupported kind) (List.mem_cons_self _ _)
            simp [Elem.isTri] at this

theorem collectTrias_edges_nil {elems : List Elem} {ts : List Tria}
    (h : collectTrias elems = .ok ts) : ∀ t ∈ ts, t.edges = [] := by
  induction elems generalizing ts with
  | nil =>
      cases h
      simp
  | cons el elems ih =>
      cases el with
      | tri t0 =>
          simp only [collectTrias] at h
          cases hc : collectTrias elems with
          | error e => rw [hc] at h; cases h
          | ok ts2 =>
              rw [hc] at h
              cases h
              intro t ht
              rcases List.mem_cons.mp ht with h | h
              · subst h
                rfl
              · exact ih hc t h
      | unsupported kind => cases h

theorem mkNode_xyz (nid : Nat) (pt : List Int) : (mkNode nid pt).xyz = padPt pt := by
  rcases pt with _ | ⟨x, _ | ⟨y, _ | ⟨z, rest⟩⟩⟩ <;> simp [mkNode, padPt]

theorem mkNodes_length (nid0 : Nat) (pts : List (List Int)) :
    (mkNodes nid0 pts).length = pts.length := by
  induction pts generalizing nid0 with
  | nil => rfl
  | cons pt pts ih => simp [mkNodes, ih]

theorem mkNodes_getElem {pts : List (List Int)} {nid0 i : Nat} {nd : Node}
    (h : (mkNodes nid0 pts)[i]? = some nd) :
    nd.nid = nid0 + i + 1 ∧ ∃ pt, pts[i]? = some pt ∧ nd.xyz = padPt pt := by
  induction pts generalizing nid0 i with
  | nil => cases h
  | cons pt pts ih =>
      cases i with
      | zero =>
          simp only [mkNodes, List.getElem?_cons_zero, Option.some.injEq] at h
          subst h
          exact ⟨rfl, pt, by simp, mkNode_xyz _ _⟩
      | succ i =>
          simp only [mkNodes, List.getElem?_cons_succ] at h
          rcases ih h with ⟨h1, pt2, h2, h3⟩
          refine ⟨by omega, pt2, by simpa using h2, h3⟩

theorem mkNodes_map (nid0 : Nat) (pts : List (List Int)) :
    (mkNodes nid0 pts).map (fun nd => (nd.nid, nd.xyz)) =
      (pts.enumFrom (nid0 + 1)).map (fun q => (q.1, padPt q.2)) := by
  induction pts generalizing nid0 with
  | nil => rfl
  | cons pt pts ih =>
      simp only [mkNodes, List.map_cons, List.enumFrom_cons]
      rw [mkNode_xyz]
      exact congrArg _ (by simpa [Nat.add_assoc] using ih (nid0 + 1))

theorem mkTrias_isSome_of {nodes : List Node} {sims : List (Nat × Nat × Nat)}
    (h : ∀ s ∈ sims, s.1 < nodes.length ∧ s.2.1 < nodes.length ∧ s.2.2 < nodes.length)
    (eid0 : Nat) : (mkTrias nodes eid0 sims).isSome := by
  induction sims generalizing eid0 with
  | nil => simp [mkTrias]
  | cons s sims ih =>
      rcases h s (List.mem_cons_self _ _) with ⟨h1, h2, h3⟩
      have hrec := ih (fun s2 hs2 => h s2 (List.mem_cons_of_mem _ hs2)) (eid0 + 1)
      rcases Option.isSome_iff_exists.mp hrec with ⟨ts, hts⟩
      simp [mkTrias, List.getElem?_eq_getElem, h1, h2, h3, hts]

theorem mkTrias_bounds_of_some {nodes : List Node} {sims : List (Nat × Nat × Nat)}
    {eid0 : Nat} {ts : List Tria} (h : mkTrias nodes eid0 sims = some ts) :
    ∀ s ∈ sims, s.1 < nodes.length ∧ s.2.1 < nodes.length ∧ s.2.2 < nodes.length := by
  induction sims generalizing eid0 ts with
  | nil => simp
  | cons s sims ih =>
      intro s2 hs2
      simp only [mkTrias, Option.bind_eq_bind] at h
      cases h1 : nodes[s.1]? with
      | none => rw [h1] at h; cases h
      | some a =>
        rw [h1] at h
        cases h2 : nodes[s.2.1]? with
        | none => rw [h2] at h; cases h
        | some b =>
          rw [h2] at h
          cases h3 : nodes[s.2.2]? with
          | none => rw [h3] at h; cases h
          | some c =>
            rw [h3] at h
            cases h4 : mkTrias nodes (eid0 + 1) sims with
            | none => rw [h4] at h; cases h
            | some ts2 =>
                rcases List.mem_cons.mp hs2 with hs | hs
                · subst hs
                  refine ⟨?_, ?_, ?_⟩ <;>
                    first
                      | exact (List.getElem?_eq_some.mp h1).1
                      | exact (List.getElem?_eq_some.mp h2).1
                      | exact (List.getElem?_eq_some.mp h3).1
                · exact ih h4 s2 hs

theorem mkTrias_spec {points : List (List Int)} {eid0 : Nat}
    {sims : List (Nat × Nat × Nat)} {ts : List Tria}
    (h : mkTrias (mkNodes 0 points) eid0 sims = some ts) :
    ts.map (fun t => (t.eid, t.n1, t.n2, t.n3)) =
      (sims.enumFrom (eid0 + 1)).map (fun q =>
        (q.1, q.2.1 + 1, q.2.2.1 + 1, q.2.2.2 + 1)) := by
  induction sims generalizing eid0 ts with
  | nil =>
      simp only [mkTrias, Option.some.injEq] at h
      subst h
      rfl
  | cons s sims ih =>
      simp only [mkTrias, Option.bind_eq_bind] at h
      cases h1 : (mkNodes 0 points)[s.1]? with
      | none => rw [h1] at h; cases h
      | some a =>
        rw [h1] at h
        cases h2 : (mkNodes 0 points)[s.2.1]? with
        | none => rw [h2] at h; cases h
        | some b =>
          rw [h2] at h
          cases h3 : (mkNodes 0 points)[s.2.2]? with
          | none => rw [h3] at h; cases h
          | some c =>
            rw [h3] at h
            cases h4 : mkTrias (mkNodes 0 points) (eid0 + 1) sims with
            | none => rw [h4] at h; cases h
            | some ts2 =>
                rw [h4] at h
                cases h
                have ha := (mkNodes_getElem h1).1
                have hb := (mkNodes_getElem h2).1
                have hc := (mkNodes_getElem h3).1
                simp only [List.map_cons, List.enumFrom_cons]
                rw [ih h4]
                simp [ha, hb, hc]

/-! ### Claim theorems -/

/-- C2: after construction, for every triangle `t` of the input and every one
of its three canonical edge keys `k`, the mesh's edge mapping holds an Edge
under `k` whose supporting-triangle list contains `t`, and every node entry
keyed by either endpoint of `k` holds that edge key in its incident-edge
set. -/
theorem adjacency_edge_complete (ns : List (Nat × Node)) (ts : List Tria)
    (t : Tria) (ht : t ∈ ts) (k : EKey) (hk : k ∈ t.get_edge_ids) :
    (∃ e, alook (buildAdjacency ns ts).edges k = some e ∧ t.eid ∈ e.trias) ∧
    (∀ p ∈ (buildAdjacency ns ts).nodes, p.1 = k.1 ∨ p.1 = k.2 → k ∈ p.2.edges) := by
  have hne : groupOf ts k ≠ [] := (groupOf_ne_nil_iff ts k).mpr ⟨t, ht, hk⟩
  have halook : alook (edges_ids ts) k = some (groupOf ts k) := by
    rw [alook_edges_ids, if_neg hne]
  constructor
  · refine ⟨Edge.mk k.1 k.2 ((groupOf ts k).map Tria.eid), ?_, ?_⟩
    · show alook (mkEdges (edges_ids ts)) k = _
      rw [alook_mkEdges, halook]
      rfl
    · exact List.mem_map.mpr ⟨t, (mem_groupOf ts k t).mpr ⟨ht, hk⟩, rfl⟩
  · intro p hp hside
    have hkeys : k ∈ (mkEdges (edges_ids ts)).map Prod.fst := by
      rw [mkEdges_keys]
      exact (mem_edges_ids_keys_iff ts k).mpr hne
    have hmem : p ∈ (registerEdges ns (mkEdges (edges_ids ts))).map (fun p =>
        (p.1, { p.2 with trias := addEids p.1 ts p.2.trias })) := by
      rw [← registerTrias_eq]
      exact hp
    rcases List.mem_map.mp hmem with ⟨q, hq, rfl⟩
    rcases List.mem_map.mp (registerEdges_eq ns (mkEdges (edges_ids ts)) ▸ hq) with
      ⟨r, hr, rfl⟩
    show k ∈ addKeys r.1 (mkEdges (edges_ids ts)) r.2.edges
    refine (mem_addKeys _ _ _ _).mpr (Or.inr ⟨hkeys, ?_⟩)
    rcases hside with h | h
    · exact Or.inl h
    · exact Or.inr h

/-- C2 witness: the theorem at the one-triangle mesh over `exT1`, its first
edge key (1, 2), and the node entry of node 1. -/
theorem adjacency_edge_complete_witness :
    (∃ e, alook (buildAdjacency exNodes [exT1]).edges (1, 2) = some e ∧
        exT1.eid ∈ e.trias) ∧
    (1, 2) ∈ ((buildAdjacency exNodes [exT1]).nodes.get ⟨0, by decide⟩).2.edges := by
  have h := adjacency_edge_complete exNodes [exT1] exT1 (by decide) (1, 2) (by decide)
  exact ⟨h.1, h.2 _ (List.get_mem _ _ _) (by decide)⟩

/-- C3: every edge of the built mesh has a non-empty supporting-triangle
list; every element whose id is in that list carries the edge's key in its
own edge list; and ingestion accepts any all-triangle element list — in
particular an edge shared by more than 2 triangles raises no error. -/
theorem edges_supported_and_nonmanifold_ok (ns : List (Nat × Node))
    (ts : List Tria) (elems : List Elem) :
    (∀ ke ∈ (buildAdjacency ns ts).edges, ke.2.trias ≠ [] ∧
      ∀ t ∈ (buildAdjacency ns ts).elements, t.eid ∈ ke.2.trias → ke.1 ∈ t.edges) ∧
    ((∀ el ∈ elems, el.isTri = true) → ∃ m, read_mesh ns elems = .ok m) := by
  constructor
  · intro ke hke
    rcases mem_mkEdges_inv hke with ⟨g, hg, he⟩
    rcases mem_edges_ids_group hg with ⟨hgeq, hgne⟩
    constructor
    · rw [he]
      simp only [ne_eq, List.map_eq_nil_iff]
      rw [hgeq]
      exact hgne
    · intro t hmem hin
      have hmem2 : t ∈ ts.map (fun t =>
          { t with edges := t.edges ++ keysFor (mkEdges (edges_ids ts)) t.eid }) := by
        rw [← attachEdges_eq]
        exact hmem
      rcases List.mem_map.mp hmem2 with ⟨t0, ht0, rfl⟩
      refine List.mem_append.mpr (Or.inr ?_)
      refine List.mem_flatMap.mpr ⟨ke, hke, ?_⟩
      refine List.mem_map.mpr ⟨t0.eid, List.mem_filter.mpr ⟨hin, by simp⟩, rfl⟩
  · intro h
    rcases (collectTrias_ok_iff elems).mpr h with ⟨ts2, hts2⟩
    exact ⟨_, by rw [read_mesh, hts2]; rfl⟩

/-- C4: ingestion from parsed elements returns a mesh exactly when every
element is the supported 3-node triangle kind; any unsupported element makes
it fail with an error, returning no mesh at all. -/
theorem read_mesh_ok_iff (ns : List (Nat × Node)) (elems : List Elem) :
    (∃ m, read_mesh ns elems = .ok m) ↔ (∀ el ∈ elems, el.isTri = true) := by
  rw [← collectTrias_ok_iff]
  constructor
  · rintro ⟨m, hm⟩
    cases hc : collectTrias elems with
    | error e =>
        rw [read_mesh, hc] at hm
        cases hm
    | ok ts => exact ⟨ts, rfl⟩
  · rintro ⟨ts, hts⟩
    exact ⟨_, by rw [read_mesh, hts]; rfl⟩

/-- C5: no two distinct entries of the edge mapping have semantically equal
(order-independent) node-pair keys: pairwise, the keys are neither equal nor
swaps of one another. -/
theorem edge_keys_unordered_distinct (ns : List (Nat × Node)) (ts : List Tria) :
    List.Pairwise (fun p q : EKey × Edge =>
      ¬ ((p.1.1 = q.1.1 ∧ p.1.2 = q.1.2) ∨ (p.1.1 = q.1.2 ∧ p.1.2 = q.1.1)))
      (buildAdjacency ns ts).edges := by
  have hnodup : ((buildAdjacency ns ts).edges.map Prod.fst).Nodup := by
    show ((mkEdges (edges_ids ts)).map Prod.fst).Nodup
    rw [mkEdges_keys]
    exact edges_ids_keys_nodup ts
  have hsorted : ∀ ke ∈ (buildAdjacency ns ts).edges, ke.1.1 ≤ ke.1.2 := by
    intro ke hke
    rcases mem_mkEdges_inv hke with ⟨g, hg, _⟩
    rcases mem_edges_ids_group hg with ⟨_, hgne⟩
    rcases (groupOf_ne_nil_iff ts ke.1).mp hgne with ⟨t, _, hkt⟩
    exact mem_get_edge_ids_sorted hkt
  have hpw : List.Pairwise (fun p q : EKey × Edge => p.1 ≠ q.1)
      (buildAdjacency ns ts).edges := List.pairwise_map.mp hnodup
  refine hpw.imp_of_mem ?_
  intro a b ha hb hne hcon
  rcases hcon with ⟨h1, h2⟩ | ⟨h1, h2⟩
  · exact hne (Prod.ext h1 h2)
  · have hsa := hsorted a ha
    have hsb := hsorted b hb
    exact hne (Prod.ext (by omega) (by omega))

/-- C8: the supporting-triangle list of each edge of the built mesh lists
exactly the triangles whose edge keys contain that edge's key, in the input
processing order (the order in which triangles were first scanned). -/
theorem edge_trias_processing_order (ns : List (Nat × Node)) (ts : List Tria)
    (hN : ∀ t ∈ ts, t.get_edge_ids.Nodup) (k : EKey) (e : Edge)
    (h : alook (buildAdjacency ns ts).edges k = some e) :
    e.trias = (ts.filter (fun t => k ∈ t.get_edge_ids)).map Tria.eid := by
  have h2 : alook (mkEdges (edges_ids ts)) k = some e := h
  rw [alook_mkEdges, alook_edges_ids] at h2
  by_cases hg : groupOf ts k = []
  · rw [if_pos hg] at h2
    cases h2
  · rw [if_neg hg] at h2
    cases h2
    show (groupOf ts k).map Tria.eid = _
    rw [groupOf_eq_filter hN]

/-- C8 witness: in the two-triangle mesh `exT1`, `exT2`, the shared edge
(2, 3) lists the triangles in processing order 1, 2. -/
theorem edge_trias_processing_order_witness :
    (Edge.mk 2 3 [1, 2]).trias =
      (([exT1, exT2]).filter (fun t => (2, 3) ∈ t.get_edge_ids)).map Tria.eid :=
  edge_trias_processing_order exNodes [exT1, exT2] (by decide) (2, 3)
    (Edge.mk 2 3 [1, 2]) (by decide)

theorem flatMap_congr_mem {α β : Type} {l : List α} {f g : α → List β}
    (h : ∀ a ∈ l, f a = g a) : l.flatMap f = l.flatMap g := by
  induction l with
  | nil => rfl
  | cons a l ih =>
      rw [List.flatMap_cons, List.flatMap_cons, h a (List.mem_cons_self _ _),
        ih (fun a2 h2 => h a2 (List.mem_cons_of_mem _ h2))]

theorem eids_filter_eq {ts : List Tria} (hE : (ts.map Tria.eid).Nodup) {t0 : Tria}
    (ht0 : t0 ∈ ts) (P : Tria → Bool) :
    ((ts.filter P).map Tria.eid).filter (fun e => e = t0.eid) =
      if P t0 then [t0.eid] else [] := by
  induction ts with
  | nil => cases ht0
  | cons t ts ih =>
      rw [List.map_cons] at hE
      rcases List.nodup_cons.mp hE with ⟨hteid, hE2⟩
      rcases List.mem_cons.mp ht0 with rfl | ht0tl
      · have htail : ((ts.filter P).map Tria.eid).filter (fun e => e = t0.eid) = [] := by
          rw [List.filter_eq_nil_iff]
          intro e he
          rcases List.mem_map.mp he with ⟨t2, ht2, rfl⟩
          have ht2ts : t2 ∈ ts := (List.mem_filter.mp ht2).1
          simp only [decide_eq_true_eq]
          intro heq
          exact hteid (heq ▸ List.mem_map.mpr ⟨t2, ht2ts, rfl⟩)
        by_cases hP : P t0 <;>
          simp [List.filter_cons, hP, htail]
      · have hne : t.eid ≠ t0.eid := by
          intro heq
          exact hteid (heq ▸ List.mem_map.mpr ⟨t0, ht0tl, rfl⟩)
        by_cases hP : P t <;> simp [List.filter_cons, hP, hne, ih hE2 ht0tl]

theorem flatMap_key_filter (es : List (EKey × Edge)) (S : List EKey) :
    (es.flatMap (fun p => if p.1 ∈ S then [p.1] else [])) =
      (es.map Prod.fst).filter (fun k => k ∈ S) := by
  induction es with
  | nil => rfl
  | cons p es ih =>
      rw [List.flatMap_cons, List.map_cons, List.filter_cons, ih]
      by_cases hp : p.1 ∈ S <;> simp [hp]

theorem length_filter_mem {keys S : List EKey} (hkeys : keys.Nodup) (hS : S.Nodup)
    (hsub : ∀ k ∈ S, k ∈ keys) :
    (keys.filter (fun k => k ∈ S)).length = S.length := by
  have h1 : (keys.filter (fun k => k ∈ S)).Nodup := hkeys.filter _
  have h2 : (keys.filter (fun k => k ∈ S)).toFinset = S.toFinset := by
    ext x
    simp only [List.mem_toFinset, List.mem_filter, decide_eq_true_eq]
    exact ⟨fun h => h.2, fun h => ⟨hsub x h, h⟩⟩
  calc (keys.filter (fun k => k ∈ S)).length
      = (keys.filter (fun k => k ∈ S)).toFinset.card :=
        (List.toFinset_card_of_nodup h1).symm
    _ = S.toFinset.card := by rw [h2]
    _ = S.length := List.toFinset_card_of_nodup hS

theorem keysFor_eq_filter {ts : List Tria} (hE : (ts.map Tria.eid).Nodup)
    (hN : ∀ t ∈ ts, t.get_edge_ids.Nodup) {t0 : Tria} (ht0 : t0 ∈ ts) :
    keysFor (mkEdges (edges_ids ts)) t0.eid =
      ((mkEdges (edges_ids ts)).map Prod.fst).filter
        (fun k => k ∈ t0.get_edge_ids) := by
  unfold keysFor
  rw [← flatMap_key_filter]
  refine flatMap_congr_mem ?_
  intro p hp
  rcases mem_mkEdges_inv hp with ⟨g, hg, he⟩
  rcases mem_edges_ids_group hg with ⟨hgeq, _⟩
  have htr : p.2.trias = g.map Tria.eid := by rw [he]
  rw [htr, hgeq, groupOf_eq_filter hN,
    eids_filter_eq hE ht0 (fun t => decide (p.1 ∈ t.get_edge_ids))]
  by_cases hk : p.1 ∈ t0.get_edge_ids <;> simp [hk]

/-- C1 (counterexample): in the mesh of the two triangles `exT1` and `exT2`
sharing edge (2, 3), the second triangle's edge list is not in its local edge
enumeration order — the shared edge, created first, comes first. -/
theorem tria_edges_not_local_order :
    ¬ (∀ t ∈ (buildAdjacency exNodes [exT1, exT2]).elements,
        t.edges = t.get_edge_ids) := by decide

/-- C1 (amended): for every triangle of the built mesh, the edge list has
length exactly 3 and contains exactly the canonical keys of the triangle's
three local node pairs, but ordered by the keys' first-creation order in the
edge mapping, not by the triangle's local edge enumeration. -/
theorem tria_edges_creation_order (ns : List (Nat × Node)) (ts : List Tria)
    (hE : (ts.map Tria.eid).Nodup) (h0 : ∀ t ∈ ts, t.edges = [])
    (hN : ∀ t ∈ ts, t.get_edge_ids.Nodup) :
    ∀ t ∈ (buildAdjacency ns ts).elements,
      t.edges = ((buildAdjacency ns ts).edges.map Prod.fst).filter
          (fun k => k ∈ t.get_edge_ids) ∧ t.edges.length = 3 := by
  intro t hmem
  have hmem2 : t ∈ ts.map (fun t =>
      { t with edges := t.edges ++ keysFor (mkEdges (edges_ids ts)) t.eid }) := by
    rw [← attachEdges_eq]
    exact hmem
  rcases List.mem_map.mp hmem2 with ⟨t0, ht0, rfl⟩
  have hedges0 := h0 t0 ht0
  constructor
  · show t0.edges ++ keysFor (mkEdges (edges_ids ts)) t0.eid = _
    rw [hedges0, List.nil_append, keysFor_eq_filter hE hN ht0]
    rfl
  · show (t0.edges ++ keysFor (mkEdges (edges_ids ts)) t0.eid).length = 3
    rw [hedges0, List.nil_append, keysFor_eq_filter hE hN ht0]
    refine (length_filter_mem ?_ (hN t0 ht0) ?_).trans rfl
    · rw [mkEdges_keys]
      exact edges_ids_keys_nodup ts
    · intro k hk
      rw [mkEdges_keys]
      exact (mem_edges_ids_keys_iff ts k).mpr
        ((groupOf_ne_nil_iff ts k).mpr ⟨t0, ht0, hk⟩)

/-- C1 witness: the amended claim at the two-triangle mesh, instantiated at
the built form of `exT2`, whose edge list is [(2,3), (2,4), (3,4)]. -/
theorem tria_edges_creation_order_witness :
    (Tria.mk 2 2 4 3 [(2, 3), (2, 4), (3, 4)]).edges =
      ((buildAdjacency exNodes [exT1, exT2]).edges.map Prod.fst).filter
        (fun k => k ∈ (Tria.mk 2 2 4 3 [(2, 3), (2, 4), (3, 4)]).get_edge_ids) ∧
    (Tria.mk 2 2 4 3 [(2, 3), (2, 4), (3, 4)]).edges.length = 3 :=
  tria_edges_creation_order exNodes [exT1, exT2] (by decide) (by decide) (by decide)
    (Tria.mk 2 2 4 3 [(2, 3), (2, 4), (3, 4)]) (by decide)

theorem exists_elem_iff (ts : List Tria) (es : List (EKey × Edge)) (e nid : Nat) :
    (∃ t ∈ attachEdges ts es, t.eid = e ∧ nid ∈ t.node_ids) ↔
      (∃ t ∈ ts, t.eid = e ∧ nid ∈ t.node_ids) := by
  rw [attachEdges_eq]
  constructor
  · rintro ⟨t, hmem, he, hn⟩
    rcases List.mem_map.mp hmem with ⟨t0, ht0, rfl⟩
    exact ⟨t0, ht0, he, hn⟩
  · rintro ⟨t0, ht0, he, hn⟩
    exact ⟨_, List.mem_map.mpr ⟨t0, ht0, rfl⟩, he, hn⟩

/-- C6: in a mesh returned by ingestion from parsed elements, every node's
incident-triangle set holds exactly the element ids of the triangles whose
node list contains that node's id, and its incident-edge set holds exactly
the keys of the mesh's edge mapping containing that node's id. -/
theorem node_adjacency_exact (ns : List (Nat × Node)) (elems : List Elem)
    (m : Mesh) (h : read_mesh ns elems = .ok m) :
    ∀ p ∈ m.nodes,
      (∀ e, e ∈ p.2.trias ↔ ∃ t ∈ m.elements, t.eid = e ∧ p.1 ∈ t.node_ids) ∧
      (∀ k, k ∈ p.2.edges ↔ k ∈ m.edges.map Prod.fst ∧ (k.1 = p.1 ∨ k.2 = p.1)) := by
  rw [read_mesh] at h
  cases hc : collectTrias elems with
  | error e =>
      rw [hc] at h
      cases h
  | ok ts =>
      rw [hc] at h
      cases h
      intro p hp
      have hp2 : p ∈ ((ns.map (fun r => (r.1, initNode r.2))).map (fun q =>
          (q.1, { q.2 with edges := addKeys q.1 (mkEdges (edges_ids ts)) q.2.edges }))).map
            (fun q => (q.1, { q.2 with trias := addEids q.1 ts q.2.trias })) := by
        rw [← registerEdges_eq, ← registerTrias_eq]
        exact hp
      rcases List.mem_map.mp hp2 with ⟨q, hq, rfl⟩
      rcases List.mem_map.mp hq with ⟨q0, hq0, rfl⟩
      rcases List.mem_map.mp hq0 with ⟨r, hr, rfl⟩
      constructor
      · intro e
        show e ∈ addEids r.1 ts (∅ : Finset Nat) ↔ _
        rw [mem_addEids]
        simp only [Finset.not_mem_empty, false_or]
        exact (exists_elem_iff ts (mkEdges (edges_ids ts)) e r.1).symm
      · intro k
        show k ∈ addKeys r.1 (mkEdges (edges_ids ts)) (∅ : Finset EKey) ↔ _
        rw [mem_addKeys]
        simp only [Finset.not_mem_empty, false_or]
        exact ⟨fun h2 => ⟨h2.1, h2.2.imp Eq.symm Eq.symm⟩,
          fun h2 => ⟨h2.1, h2.2.imp Eq.symm Eq.symm⟩⟩

/-- C6 witness: the theorem at the one-triangle mesh over `exT1`. -/
theorem node_adjacency_exact_witness :
    ∃ m, read_mesh exNodes [Elem.tri exT1] = .ok m ∧
      ∀ p ∈ m.nodes,
        (∀ e, e ∈ p.2.trias ↔ ∃ t ∈ m.elements, t.eid = e ∧ p.1 ∈ t.node_ids) ∧
        (∀ k, k ∈ p.2.edges ↔ k ∈ m.edges.map Prod.fst ∧ (k.1 = p.1 ∨ k.2 = p.1)) := by
  cases hm : read_mesh exNodes [Elem.tri exT1] with
  | error e =>
      exfalso
      have hok : (read_mesh exNodes [Elem.tri exT1]).isOk = true := by decide
      rw [hm] at hok
      cases hok
  | ok m => exact ⟨m, rfl, node_adjacency_exact exNodes [Elem.tri exT1] m hm⟩

/-! ### Point-cloud ingestion helpers -/

theorem read_delaunay_parts {points : List (List Int)}
    {simplices : List (Nat × Nat × Nat)} {m : Mesh}
    (h : read_delaunay points simplices = some m) :
    ∃ ts, mkTrias (mkNodes 0 points) 0 simplices = some ts ∧
      m = buildAdjacency ((mkNodes 0 points).map (fun nd => (nd.nid, nd))) ts := by
  simp only [read_delaunay] at h
  cases hts : mkTrias (mkNodes 0 points) 0 simplices with
  | none =>
      rw [hts] at h
      cases h
  | some ts =>
      rw [hts] at h
      cases h
      exact ⟨ts, rfl, rfl⟩

theorem enumFrom_map_snd_comp {α β : Type} (n : Nat) (l : List α) (f : α → β) :
    (l.enumFrom n).map (fun q => f q.2) = l.map f := by
  induction l generalizing n with
  | nil => rfl
  | cons a l ih => simp [List.enumFrom_cons, ih]

theorem read_delaunay_nodes_proj {points : List (List Int)}
    {simplices : List (Nat × Nat × Nat)} {m : Mesh}
    (h : read_delaunay points simplices = some m) :
    m.nodes.map (fun p => (p.1, p.2.nid, p.2.xyz)) =
      (points.enumFrom 1).map (fun q => (q.1, q.1, padPt q.2)) := by
  rcases read_delaunay_parts h with ⟨ts, _, rfl⟩
  have h4 := buildAdjacency_nodes_proj
    ((mkNodes 0 points).map (fun nd => (nd.nid, nd))) ts
  have h5 := congrArg (List.map
    (fun q : Nat × Nat × List Int × Finset Nat => (q.1, q.2.1, q.2.2.1))) h4
  rw [List.map_map, List.map_map, List.map_map] at h5
  have h2 := congrArg (List.map (fun r : Nat × List Int => (r.1, r.1, r.2)))
    (mkNodes_map 0 points)
  rw [List.map_map, List.map_map] at h2
  exact h5.trans h2

theorem read_delaunay_elements_proj {points : List (List Int)}
    {simplices : List (Nat × Nat × Nat)} {m : Mesh}
    (h : read_delaunay points simplices = some m) :
    m.elements.map (fun t => (t.eid, t.n1, t.n2, t.n3)) =
      (simplices.enumFrom 1).map (fun q =>
        (q.1, q.2.1 + 1, q.2.2.1 + 1, q.2.2.2 + 1)) := by
  rcases read_delaunay_parts h with ⟨ts, hts, rfl⟩
  rw [buildAdjacency_elements_proj]
  exact mkTrias_spec hts

theorem read_delaunay_isSome_iff (points : List (List Int))
    (simplices : List (Nat × Nat × Nat)) :
    (read_delaunay points simplices).isSome = true ↔
      ∀ s ∈ simplices, s.1 < points.length ∧ s.2.1 < points.length ∧
        s.2.2 < points.length := by
  simp only [read_delaunay, Option.isSome_map']
  constructor
  · intro h
    rcases Option.isSome_iff_exists.mp h with ⟨ts, hts⟩
    intro s hs
    have hb := mkTrias_bounds_of_some hts s hs
    rwa [mkNodes_length] at hb
  · intro h
    apply mkTrias_isSome_of
    intro s hs
    rw [mkNodes_length]
    exact h s hs

/-- C7: point-cloud ingestion creates one node per point, keyed and numbered
1, 2, ... in input order, with 2-coordinate points embedded into 3D by a
zero third coordinate, and one triangle per simplex, numbered 1, 2, ... in
input order, its node ids read off the synthesized node numbering. -/
theorem delaunay_sequential_ids (points : List (List Int))
    (simplices : List (Nat × Nat × Nat)) (m : Mesh)
    (h : read_delaunay points simplices = some m) :
    m.nodes.map (fun p => (p.1, p.2.nid, p.2.xyz)) =
      (points.enumFrom 1).map (fun q => (q.1, q.1, padPt q.2)) ∧
    m.elements.map (fun t => (t.eid, t.n1, t.n2, t.n3)) =
      (simplices.enumFrom 1).map (fun q =>
        (q.1, q.2.1 + 1, q.2.2.1 + 1, q.2.2.2 + 1)) :=
  ⟨read_delaunay_nodes_proj h, read_delaunay_elements_proj h⟩

/-- C7 witness: a 4-point, 2-triangle Delaunay input. -/
theorem delaunay_sequential_ids_witness :
    ∃ m, read_delaunay [[0, 0], [2, 0], [0, 2], [2, 2]] [(0, 1, 2), (1, 3, 2)] =
        some m ∧
      (m.nodes.map (fun p => (p.1, p.2.nid, p.2.xyz)) =
        (([[0, 0], [2, 0], [0, 2], [2, 2]] : List (List Int)).enumFrom 1).map
          (fun q => (q.1, q.1, padPt q.2)) ∧
      m.elements.map (fun t => (t.eid, t.n1, t.n2, t.n3)) =
        (([(0, 1, 2), (1, 3, 2)] : List (Nat × Nat × Nat)).enumFrom 1).map
          (fun q => (q.1, q.2.1 + 1, q.2.2.1 + 1, q.2.2.2 + 1))) := by
  cases hm : read_delaunay [[0, 0], [2, 0], [0, 2], [2, 2]] [(0, 1, 2), (1, 3, 2)] with
  | none =>
      exfalso
      have hok : (read_delaunay [[0, 0], [2, 0], [0, 2], [2, 2]]
          [(0, 1, 2), (1, 3, 2)]).isSome = true := by decide
      rw [hm] at hok
      cases hok
  | some m => exact ⟨m, rfl, delaunay_sequential_ids _ _ m hm⟩

/-- C10: only a point with exactly 2 coordinates is padded with a zero third
coordinate — any other length passes through unchanged into the node's
coordinates — and ingestion succeeds or fails independently of point
dimensions (only simplex indices out of range make it fail). -/
theorem point_dimension_passthrough (points : List (List Int))
    (simplices : List (Nat × Nat × Nat)) (m : Mesh)
    (h : read_delaunay points simplices = some m) :
    (∀ nid pt, (mkNode nid pt).xyz = if pt.length = 2 then pt ++ [0] else pt) ∧
    m.nodes.map (fun p => p.2.xyz) =
      points.map (fun pt => if pt.length = 2 then pt ++ [0] else pt) ∧
    (∀ pts2 sims2, (read_delaunay pts2 sims2).isSome = true ↔
      ∀ s ∈ sims2, s.1 < pts2.length ∧ s.2.1 < pts2.length ∧
        s.2.2 < pts2.length) := by
  refine ⟨fun nid pt => mkNode_xyz nid pt, ?_,
    fun pts2 sims2 => read_delaunay_isSome_iff pts2 sims2⟩
  have h3 := read_delaunay_nodes_proj h
  have h4 := congrArg (List.map (fun r : Nat × Nat × List Int => r.2.2)) h3
  rw [List.map_map, List.map_map] at h4
  exact h4.trans (enumFrom_map_snd_comp 1 points padPt)

/-- C10 witness: a point cloud with a 1-coordinate, a 2-coordinate and a
4-coordinate point; only the 2-coordinate point is padded and no error is
raised. -/
theorem point_dimension_passthrough_witness :
    ∃ m, read_delaunay [[5], [1, 2], [1, 2, 3, 4]] [(0, 1, 2)] = some m ∧
      ((∀ nid pt, (mkNode nid pt).xyz = if pt.length = 2 then pt ++ [0] else pt) ∧
      m.nodes.map (fun p => p.2.xyz) =
        ([[5], [1, 2], [1, 2, 3, 4]] : List (List Int)).map
          (fun pt => if pt.length = 2 then pt ++ [0] else pt) ∧
      (∀ pts2 sims2, (read_delaunay pts2 sims2).isSome = true ↔
        ∀ s ∈ sims2, s.1 < pts2.length ∧ s.2.1 < pts2.length ∧
          s.2.2 < pts2.length)) := by
  cases hm : read_delaunay [[5], [1, 2], [1, 2, 3, 4]] [(0, 1, 2)] with
  | none =>
      exfalso
      have hok : (read_delaunay [[5], [1, 2], [1, 2, 3, 4]]
          [(0, 1, 2)]).isSome = true := by decide
      rw [hm] at hok
      cases hok
  | some m => exact ⟨m, rfl, point_dimension_passthrough _ _ m hm⟩

theorem filter_eq_length_of_nodup {α : Type} [DecidableEq α] {l : List α}
    (h : l.Nodup) (k : α) :
    (l.filter (fun x => x = k)).length = if k ∈ l then 1 else 0 := by
  rw [filter_eq_self_of_nodup h k]
  by_cases hk : k ∈ l <;> simp [hk]

theorem groupOf_pair (t1 t2 : Tria) (k : EKey) :
    groupOf [t1, t2] k =
      (t1.get_edge_ids.filter (fun k2 => k2 = k)).map (fun _ => t1) ++
      (t2.get_edge_ids.filter (fun k2 => k2 = k)).map (fun _ => t2) := by
  simp [groupOf]

/-- C9: for any two triangles with distinct node ids each, sharing exactly
one canonical edge key, the built mesh has exactly 5 edges; the shared edge
is supported by exactly 2 triangles and each other edge by exactly 1. -/
theorem two_trias_shared_edge (ns : List (Nat × Node)) (t1 t2 : Tria)
    (h1a : t1.n1 ≠ t1.n2) (h1b : t1.n2 ≠ t1.n3) (h1c : t1.n1 ≠ t1.n3)
    (h2a : t2.n1 ≠ t2.n2) (h2b : t2.n2 ≠ t2.n3) (h2c : t2.n1 ≠ t2.n3)
    (hshare : (t1.get_edge_ids.filter (fun k => k ∈ t2.get_edge_ids)).length = 1) :
    (buildAdjacency ns [t1, t2]).edges.length = 5 ∧
    ∀ ke ∈ (buildAdjacency ns [t1, t2]).edges,
      ke.2.trias.length =
        if ke.1 ∈ t1.get_edge_ids ∧ ke.1 ∈ t2.get_edge_ids then 2 else 1 := by
  have hN1 : t1.get_edge_ids.Nodup := get_edge_ids_nodup h1a h1b h1c
  have hN2 : t2.get_edge_ids.Nodup := get_edge_ids_nodup h2a h2b h2c
  have hkeys_nodup := edges_ids_keys_nodup [t1, t2]
  have hmem : ∀ k : EKey, k ∈ (edges_ids [t1, t2]).map Prod.fst ↔
      (k ∈ t1.get_edge_ids ∨ k ∈ t2.get_edge_ids) := by
    intro k
    rw [mem_edges_ids_keys_iff, groupOf_ne_nil_iff]
    constructor
    · rintro ⟨t, ht, hk⟩
      rcases List.mem_cons.mp ht with rfl | ht
      · exact Or.inl hk
      · rcases List.mem_cons.mp ht with rfl | ht
        · exact Or.inr hk
        · cases ht
    · rintro (hk | hk)
      · exact ⟨t1, by simp, hk⟩
      · exact ⟨t2, by simp, hk⟩
  constructor
  · show (mkEdges (edges_ids [t1, t2])).length = 5
    rw [mkEdges, List.length_map]
    have hlen : (edges_ids [t1, t2]).length =
        ((edges_ids [t1, t2]).map Prod.fst).length := (List.length_map _ _).symm
    rw [hlen]
    have hfin : ((edges_ids [t1, t2]).map Prod.fst).toFinset =
        t1.get_edge_ids.toFinset ∪ t2.get_edge_ids.toFinset := by
      ext x
      simp only [List.mem_toFinset, Finset.mem_union]
      exact hmem x
    have hcard := List.toFinset_card_of_nodup hkeys_nodup
    have hc1 : t1.get_edge_ids.toFinset.card = 3 := by
      rw [List.toFinset_card_of_nodup hN1]
      rfl
    have hc2 : t2.get_edge_ids.toFinset.card = 3 := by
      rw [List.toFinset_card_of_nodup hN2]
      rfl
    have hcInter : (t1.get_edge_ids.toFinset ∩ t2.get_edge_ids.toFinset).card = 1 := by
      have hfnodup : (t1.get_edge_ids.filter (fun k => k ∈ t2.get_edge_ids)).Nodup :=
        hN1.filter _
      have hff : (t1.get_edge_ids.filter (fun k => k ∈ t2.get_edge_ids)).toFinset =
          t1.get_edge_ids.toFinset ∩ t2.get_edge_ids.toFinset := by
        ext x
        simp only [List.mem_toFinset, Finset.mem_inter, List.mem_filter,
          decide_eq_true_eq]
      rw [← hff, List.toFinset_card_of_nodup hfnodup, hshare]
    have hsum := Finset.card_union_add_card_inter t1.get_edge_ids.toFinset
      t2.get_edge_ids.toFinset
    rw [hfin] at hcard
    omega
  · intro ke hke
    rcases mem_mkEdges_inv hke with ⟨g, hg, he⟩
    rcases mem_edges_ids_group hg with ⟨hgeq, hgne⟩
    have hdisj : ke.1 ∈ t1.get_edge_ids ∨ ke.1 ∈ t2.get_edge_ids := by
      rcases (groupOf_ne_nil_iff _ _).mp hgne with ⟨t, ht, hk⟩
      rcases List.mem_cons.mp ht with rfl | ht
      · exact Or.inl hk
      · rcases List.mem_cons.mp ht with rfl | ht
        · exact Or.inr hk
        · cases ht
    rw [he]
    show (g.map Tria.eid).length = _
    rw [List.length_map, hgeq, groupOf_pair, List.length_append, List.length_map,
      List.length_map, filter_eq_length_of_nodup hN1, filter_eq_length_of_nodup hN2]
    by_cases hk1 : ke.1 ∈ t1.get_edge_ids <;> by_cases hk2 : ke.1 ∈ t2.get_edge_ids
    · simp [hk1, hk2]
    · simp [hk1, hk2]
    · simp [hk1, hk2]
    · exact absurd hdisj (by simp [hk1, hk2])

/-- C9 witness: the theorem at `exT1` and `exT2`, which share exactly the
edge (2, 3). -/
theorem two_trias_shared_edge_witness :
    (buildAdjacency exNodes [exT1, exT2]).edges.length = 5 ∧
    ∀ ke ∈ (buildAdjacency exNodes [exT1, exT2]).edges,
      ke.2.trias.length =
        if ke.1 ∈ exT1.get_edge_ids ∧ ke.1 ∈ exT2.get_edge_ids then 2 else 1 :=
  two_trias_shared_edge exNodes exT1 exT2 (by decide) (by decide) (by decide)
    (by decide) (by decide) (by decide) (by decide)

end Meshless
